import Mathlib

/-!
Verification of the repository/project model of the `slam` repository
(`src/slam/repository.py`), centred on `Repository._get_projects`
(topologically ordered project list), `Repository._get_repository_handler`
(handler resolution), `Repository.is_monorepo`, and the lazy
compute-once fields set up in `Repository.__init__`.

External collaborators that the repository code calls but whose code is
not part of the repository sources (`nr.util.digraph.topological_sort`,
`nr.util.functional.Once`, `slam.project.Project.get_interdependencies`)
are modelled from the specification, as indicated in their doc comments.
-/

namespace Slam

instance {ε α : Type} [DecidableEq ε] [DecidableEq α] : DecidableEq (Except ε α) := fun x y =>
  match x, y with
  | .ok a, .ok b => if h : a = b then .isTrue (by rw [h]) else .isFalse (by simpa using h)
  | .error a, .error b => if h : a = b then .isTrue (by rw [h]) else .isFalse (by simpa using h)
  | .ok _, .error _ => .isFalse (fun h => Except.noConfusion h)
  | .error _, .ok _ => .isFalse (fun h => Except.noConfusion h)

/-- A project of a repository: its stable `id`, its `directory`, its
distribution name (`dist_name()`, absent when the handler provides none)
and the distribution names it declares dependencies on. -/
structure Project where
  id : String
  directory : String
  distName : Option String
  deps : List String
deriving DecidableEq, Repr

/-- Does project `q` match one of the declared dependency names of `p`? -/
def depMatch (p q : Project) : Bool :=
  match q.distName with
  | some n => p.deps.contains n
  | none => false

/-- Modelled from the spec: `Project.interdependencies` (the file
`slam/project.py` is not among the sources): "given the full candidate set
for the owning repository, returns the subset of `candidates` that this
project declares a dependency on, matched by distribution name. Must not
include the project itself." -/
def Project.get_interdependencies (p : Project) (candidates : List Project) : List Project :=
  candidates.filter (fun q => q != p && depMatch p q)

/-- `sorted(self._handler().get_projects(self), key=lambda p: p.id)`
(repository.py line 119): stable sort of the candidate projects by `id`. -/
def sortById (projects : List Project) : List Project :=
  projects.insertionSort (fun a b => a.id.data ≤ b.id.data)

/-- The directed graph built by `Repository._get_projects`
(`nr.util.digraph.DiGraph`): a node list (deduplicated, in insertion
order) and an edge list. -/
structure DiGraph where
  nodes : List Project
  edges : List (Project × Project)
deriving Repr

/-- `graph.add_node(p, None)`: nodes are de-duplicated by identity. -/
def DiGraph.add_node (g : DiGraph) (p : Project) : DiGraph :=
  if p ∈ g.nodes then g else { g with nodes := g.nodes ++ [p] }

/-- `graph.add_edge(a, b, None)`: record the edge `a → b`. -/
def DiGraph.add_edge (g : DiGraph) (a b : Project) : DiGraph :=
  { g with edges := g.edges ++ [(a, b)] }

/-- Inner loop of `_get_projects` (repository.py lines 123-125): for each
`dep` of `project`, `add_node dep; add_edge dep project`. -/
def addDeps (project : Project) : DiGraph → List Project → DiGraph
  | g, [] => g
  | g, d :: ds => addDeps project ((g.add_node d).add_edge d project) ds

/-- Outer loop of `_get_projects` (repository.py lines 121-125). -/
def buildGraphAux (ps : List Project) : DiGraph → List Project → DiGraph
  | g, [] => g
  | g, p :: rest =>
      buildGraphAux ps (addDeps p (g.add_node p) (p.get_interdependencies ps)) rest

/-- The dependency graph of `_get_projects`: every candidate is a node and
each interdependency `dep` of `project` contributes an edge
`dep → project`. -/
def buildGraph (ps : List Project) : DiGraph :=
  buildGraphAux ps ⟨[], []⟩ ps

/-- Does node `n` still have an incoming edge from a node in `rem`? -/
def hasIncoming (edges : List (Project × Project)) (rem : List Project) (n : Project) : Bool :=
  edges.any (fun e => e.2 == n && rem.contains e.1)

/-- The nodes of `rem` that are eligible for emission: no unresolved
incoming edge remains. -/
def eligible (edges : List (Project × Project)) (rem : List Project) : List Project :=
  rem.filter (fun n => !hasIncoming edges rem n)

/-- The element with the smallest `id` (the `sorting_key=lambda p: p.id`
of repository.py line 127), keeping the earliest among equals. -/
def pickMin : List Project → Option Project
  | [] => none
  | x :: xs =>
      match pickMin xs with
      | none => some x
      | some m => if x.id.data ≤ m.id.data then some x else some m

/-- Modelled from the spec: `nr.util.digraph.algorithm.topological_sort`
(not among the sources), §4.4: a readiness-queue topological sort that at
each step emits the eligible node with the smallest key, and fails with a
circular-dependency error carrying the unorderable remainder when nodes
remain but none is eligible. `fuel` bounds the recursion; it is always
called with `fuel = rem.length`, which suffices. -/
def topoSortAux (edges : List (Project × Project)) :
    Nat → List Project → Except (List Project) (List Project)
  | _, [] => .ok []
  | 0, r :: rs => .error (r :: rs)
  | fuel + 1, r :: rs =>
      match pickMin (eligible edges (r :: rs)) with
      | none => .error (r :: rs)
      | some n =>
          match topoSortAux edges fuel ((r :: rs).erase n) with
          | .error e => .error e
          | .ok out => .ok (n :: out)

/-- `topological_sort(graph, sorting_key=lambda p: p.id)`. -/
def topological_sort (g : DiGraph) : Except (List Project) (List Project) :=
  topoSortAux g.edges g.nodes.length g.nodes

/-- `Repository._get_projects` (repository.py lines 113-127), as a function
of the raw project list returned by the repository handler: sort by `id`,
build the dependency graph, and topologically sort it. -/
def get_projects (handlerProjects : List Project) : Except (List Project) (List Project) :=
  let projects := sortById handlerProjects
  topological_sort (buildGraph projects)

/-! ### `Repository.is_monorepo` (repository.py lines 78-82) -/

/-- `Repository.is_monorepo`: `len(self.projects()) > 1 or
(len(self.projects()) == 1 and self.projects()[0].directory != self.directory)`,
as a function of the repository directory and the cached `projects()` list. -/
def is_monorepo (directory : String) (projects : List Project) : Bool :=
  decide (projects.length > 1) ||
    (match projects with
     | [p] => p.directory != directory
     | _ => false)

/-! ### `Repository._get_repository_handler` (repository.py lines 95-111) -/

/-- The value of the key `handler` under the key `repository` of the raw
configuration: absent (`None`), a string, or present but of some other
type. -/
inductive HandlerConfig where
  | absent
  | str (name : String)
  | other
deriving DecidableEq, Repr

/-- A repository handler plugin, abstracted to what the resolution code
consults: a distinguishing `tag` and the result of
`matches_repository(self)` for the repository under consideration. -/
structure RepositoryHandler where
  tag : String
  matches_repository : Bool
deriving DecidableEq, Repr

/-- The failure modes of `_get_repository_handler`: the typed
`NotASlamRepository` exception, a failed `load_entrypoint` lookup, and the
two unchecked `assert` statements (lines 108 and 110). -/
inductive HandlerFailure where
  | notASlamRepository
  | pluginNotFound (name : String)
  | assertNotAString
  | assertMismatch
deriving DecidableEq, Repr

/-- `Repository._get_repository_handler`, as a function of the configured
handler value, the `DefaultRepositoryHandler` and the `load_entrypoint`
registry: with no configured name, the default handler is used and a
mismatch raises `NotASlamRepository`; with a configured name, a non-string
value fails the `isinstance` assert, an unknown name fails entrypoint
loading, and a loaded handler that does not match fails the second assert. -/
def get_repository_handler (handler_name : HandlerConfig)
    (defaultHandler : RepositoryHandler)
    (load_entrypoint : String → Option RepositoryHandler) :
    Except HandlerFailure RepositoryHandler :=
  match handler_name with
  | .absent =>
      if defaultHandler.matches_repository then .ok defaultHandler
      else .error .notASlamRepository
  | .str name =>
      match load_entrypoint name with
      | none => .error (.pluginNotFound name)
      | some handler =>
          if handler.matches_repository then .ok handler
          else .error .assertMismatch
  | .other => .error .assertNotAString

/-! ### Lazy compute-once fields (repository.py lines 71-76, 84-93) -/

/-- The four accessors that force a lazy field of a `Repository`:
`load()`, `projects()`, `vcs()` and `host()`. -/
inductive RepoAccess where
  | load
  | projects
  | vcs
  | host
deriving DecidableEq, Repr

/-- Modelled from the spec: the observable state of the four compute-once
cells of a `Repository` (`nr.util.functional.Once` is not among the
sources; §5: "the first caller to access a lazy field performs the
computation; every subsequent access must observe the same cached result
without recomputation"): whether each cell holds its value, and how often
each underlying computation has run. -/
structure RepoLazyState where
  handlerDone : Bool
  projectsDone : Bool
  vcsDone : Bool
  hostDone : Bool
  handlerRuns : Nat
  projectsRuns : Nat
  vcsRuns : Nat
  hostRuns : Nat
deriving DecidableEq, Repr

/-- A freshly constructed `Repository` (`__init__`): no lazy field computed. -/
def RepoLazyState.fresh : RepoLazyState := ⟨false, false, false, false, 0, 0, 0, 0⟩

/-- `self._handler.get()`: run `_get_repository_handler` unless cached. -/
def forceHandler (s : RepoLazyState) : RepoLazyState :=
  if s.handlerDone then s
  else { s with handlerDone := true, handlerRuns := s.handlerRuns + 1 }

/-- One access. `load()` forces the handler cell (line 93); `projects()`,
`vcs()` and `host()` force their own cell, whose computation
(`_get_projects`, `_get_vcs`, `_get_repository_host`) first calls
`self._handler()`. -/
def access (s : RepoLazyState) : RepoAccess → RepoLazyState
  | .load => forceHandler s
  | .projects =>
      if s.projectsDone then s
      else
        let s' := forceHandler s
        { s' with projectsDone := true, projectsRuns := s'.projectsRuns + 1 }
  | .vcs =>
      if s.vcsDone then s
      else
        let s' := forceHandler s
        { s' with vcsDone := true, vcsRuns := s'.vcsRuns + 1 }
  | .host =>
      if s.hostDone then s
      else
        let s' := forceHandler s
        { s' with hostDone := true, hostRuns := s'.hostRuns + 1 }

/-- A sequence of accesses on one `Repository` instance. -/
def runAccesses (s : RepoLazyState) (ops : List RepoAccess) : RepoLazyState :=
  ops.foldl access s

/-- The single-evaluation invariant of the cells: each run counter is 1
exactly when its cell is filled, and a filled dependent cell implies the
handler cell is filled (their computations call `self._handler()`). -/
def lazyGood (s : RepoLazyState) : Prop :=
  (s.handlerRuns = if s.handlerDone then 1 else 0) ∧
  (s.projectsRuns = if s.projectsDone then 1 else 0) ∧
  (s.vcsRuns = if s.vcsDone then 1 else 0) ∧
  (s.hostRuns = if s.hostDone then 1 else 0) ∧
  (s.projectsDone = true → s.handlerDone = true) ∧
  (s.vcsDone = true → s.handlerDone = true) ∧
  (s.hostDone = true → s.handlerDone = true)

/-! ### Concrete repositories used to instantiate the theorems -/

/-- Tie-break example, candidate with id `a` and no dependencies. -/
def exA : Project := ⟨"a", "/repo/a", some "a", []⟩

/-- Tie-break example, candidate with id `b` and no dependencies. -/
def exB : Project := ⟨"b", "/repo/b", some "b", []⟩

/-- Tie-break example, candidate with id `c` depending on `a`. -/
def exC : Project := ⟨"c", "/repo/c", some "c", ["a"]⟩

/-- Cycle example: `x` depends on `y`. -/
def cycX : Project := ⟨"x", "/repo/x", some "x", ["y"]⟩

/-- Cycle example: `y` depends on `x`. -/
def cycY : Project := ⟨"y", "/repo/y", some "y", ["x"]⟩

/-- Dangling-dependency example: `m` depends on the unknown name `ghost`. -/
def dngM : Project := ⟨"m", "/repo/m", some "m", ["ghost"]⟩

/-- Dangling-dependency example: `n` depends on `m`. -/
def dngN : Project := ⟨"n", "/repo/n", some "n", ["m"]⟩

/-- A single project living at the repository root. -/
def exRoot : Project := ⟨"root", "/repo", some "root", []⟩

/-- A default handler that does not match the repository. -/
def defH : RepositoryHandler := ⟨"default", false⟩

/-- An explicitly configured handler that does not match the repository. -/
def poetryH : RepositoryHandler := ⟨"poetry", false⟩

/-- An entrypoint registry with no repository-handler plugins. -/
def noPlugins : String → Option RepositoryHandler := fun _ => none

/-- An entrypoint registry resolving only the name `poetry`. -/
def onlyPoetry : String → Option RepositoryHandler := fun n =>
  if n = "poetry" then some poetryH else none

/-! ### Basic lemmas about `pickMin`, `hasIncoming` and `eligible` -/

theorem pickMin_eq_none_iff {l : List Project} : pickMin l = none ↔ l = [] := by
  cases l with
  | nil => simp [pickMin]
  | cons x xs =>
      simp only [pickMin]
      split
      · simp
      · split <;> simp

theorem pickMin_mem {l : List Project} {n : Project} (h : pickMin l = some n) : n ∈ l := by
  induction l generalizing n with
  | nil => simp [pickMin] at h
  | cons x xs ih =>
      simp only [pickMin] at h
      split at h
      · simp only [Option.some.injEq] at h
        simp [← h]
      · rename_i m heq
        split at h <;> simp only [Option.some.injEq] at h
        · simp [← h]
        · exact List.mem_cons_of_mem _ (h ▸ ih heq)

theorem pickMin_min {l : List Project} {n : Project} (h : pickMin l = some n) :
    ∀ x ∈ l, n.id.data ≤ x.id.data := by
  induction l generalizing n with
  | nil => simp [pickMin] at h
  | cons y ys ih =>
      intro x hx
      simp only [pickMin] at h
      rcases List.mem_cons.mp hx with rfl | hx
      · split at h
        · simp only [Option.some.injEq] at h
          subst h
          exact le_refl _
        · rename_i m heq
          split at h <;> simp only [Option.some.injEq] at h <;> subst h
          · exact le_refl _
          · rename_i hle
            exact le_of_not_le hle
      · split at h
        · rename_i heq
          rw [pickMin_eq_none_iff] at heq
          subst heq
          simp at hx
        · rename_i m heq
          have hm := ih heq x hx
          split at h <;> simp only [Option.some.injEq] at h <;> subst h
          · rename_i hle
            exact le_trans hle hm
          · exact hm

theorem hasIncoming_iff {edges : List (Project × Project)} {rem : List Project} {n : Project} :
    hasIncoming edges rem n = true ↔ ∃ e ∈ edges, e.2 = n ∧ e.1 ∈ rem := by
  simp [hasIncoming, List.any_eq_true, and_comm]

theorem hasIncoming_congr {edges : List (Project × Project)} {r₁ r₂ : List Project}
    (h : ∀ a, a ∈ r₁ ↔ a ∈ r₂) (n : Project) :
    hasIncoming edges r₁ n = hasIncoming edges r₂ n := by
  simp only [hasIncoming]
  congr 1
  funext e
  by_cases he : e.2 = n <;> simp [he, h e.1]

theorem mem_eligible {edges : List (Project × Project)} {rem : List Project} {x : Project} :
    x ∈ eligible edges rem ↔ x ∈ rem ∧ hasIncoming edges rem x = false := by
  simp [eligible]

/-! ### Lemmas about the dependency-graph construction -/

theorem add_node_edges (g : DiGraph) (p : Project) : (g.add_node p).edges = g.edges := by
  unfold DiGraph.add_node
  split <;> rfl

theorem mem_add_node_nodes {g : DiGraph} {p q : Project} :
    q ∈ (g.add_node p).nodes ↔ q = p ∨ q ∈ g.nodes := by
  unfold DiGraph.add_node
  split
  · rename_i hp
    constructor
    · exact Or.inr
    · rintro (rfl | h)
      · exact hp
      · exact h
  · simp [or_comm]

theorem add_node_nodup {g : DiGraph} {p : Project} (h : g.nodes.Nodup) :
    (g.add_node p).nodes.Nodup := by
  unfold DiGraph.add_node
  split
  · exact h
  · rename_i hp
    simp [List.nodup_append, h, List.disjoint_singleton, hp]

theorem mem_get_interdependencies {p q : Project} {ps : List Project} :
    q ∈ p.get_interdependencies ps ↔ q ∈ ps ∧ q ≠ p ∧ depMatch p q = true := by
  simp [Project.get_interdependencies, List.mem_filter, bne_iff_ne, and_assoc]

theorem depMatch_iff {p q : Project} :
    depMatch p q = true ↔ ∃ n, q.distName = some n ∧ n ∈ p.deps := by
  unfold depMatch
  cases q.distName <;> simp

theorem addDeps_edges_mem {pr : Project} {ds : List Project} {g : DiGraph}
    {e : Project × Project} :
    e ∈ (addDeps pr g ds).edges ↔ e ∈ g.edges ∨ ∃ d ∈ ds, e = (d, pr) := by
  induction ds generalizing g with
  | nil => simp [addDeps]
  | cons d ds ih =>
      simp only [addDeps, ih, DiGraph.add_edge, add_node_edges]
      simp only [List.mem_append, List.mem_cons, List.mem_singleton, List.not_mem_nil,
        or_false]
      constructor
      · rintro ((h | h) | ⟨x, hx, rfl⟩)
        · exact Or.inl h
        · exact Or.inr ⟨d, Or.inl rfl, h⟩
        · exact Or.inr ⟨x, Or.inr hx, rfl⟩
      · rintro (h | ⟨x, (rfl | hx), rfl⟩)
        · exact Or.inl (Or.inl h)
        · exact Or.inl (Or.inr rfl)
        · exact Or.inr ⟨x, hx, rfl⟩

theorem addDeps_nodes_mem {pr : Project} {ds : List Project} {g : DiGraph} {q : Project} :
    q ∈ (addDeps pr g ds).nodes ↔ q ∈ g.nodes ∨ q ∈ ds := by
  induction ds generalizing g with
  | nil => simp [addDeps]
  | cons d ds ih =>
      simp only [addDeps, ih, DiGraph.add_edge, mem_add_node_nodes, List.mem_cons]
      tauto

theorem addDeps_nodup {pr : Project} {ds : List Project} {g : DiGraph}
    (h : g.nodes.Nodup) : (addDeps pr g ds).nodes.Nodup := by
  induction ds generalizing g with
  | nil => exact h
  | cons d ds ih =>
      exact ih (add_node_nodup h)

theorem buildGraphAux_nodes_mem {ps l : List Project} {g : DiGraph} {q : Project} :
    q ∈ (buildGraphAux ps g l).nodes ↔
      q ∈ g.nodes ∨ q ∈ l ∨ ∃ p ∈ l, q ∈ p.get_interdependencies ps := by
  induction l generalizing g with
  | nil => simp [buildGraphAux]
  | cons p rest ih =>
      simp only [buildGraphAux, ih, addDeps_nodes_mem, mem_add_node_nodes, List.mem_cons]
      constructor
      · rintro (((rfl | h) | h) | h | ⟨x, hx, hq⟩)
        · exact Or.inr (Or.inl (Or.inl rfl))
        · exact Or.inl h
        · exact Or.inr (Or.inr ⟨p, Or.inl rfl, h⟩)
        · exact Or.inr (Or.inl (Or.inr h))
        · exact Or.inr (Or.inr ⟨x, Or.inr hx, hq⟩)
      · rintro (h | (rfl | h) | ⟨x, (rfl | hx), hq⟩)
        · exact Or.inl (Or.inl (Or.inr h))
        · exact Or.inl (Or.inl (Or.inl rfl))
        · exact Or.inr (Or.inl h)
        · exact Or.inl (Or.inr hq)
        · exact Or.inr (Or.inr ⟨x, hx, hq⟩)

theorem buildGraphAux_edges_mem {ps l : List Project} {g : DiGraph} {e : Project × Project} :
    e ∈ (buildGraphAux ps g l).edges ↔
      e ∈ g.edges ∨ ∃ p ∈ l, ∃ d ∈ p.get_interdependencies ps, e = (d, p) := by
  induction l generalizing g with
  | nil => simp [buildGraphAux]
  | cons p rest ih =>
      simp only [buildGraphAux, ih, addDeps_edges_mem, add_node_edges, List.mem_cons]
      constructor
      · rintro ((h | ⟨d, hd, rfl⟩) | ⟨x, hx, hh⟩)
        · exact Or.inl h
        · exact Or.inr ⟨p, Or.inl rfl, d, hd, rfl⟩
        · exact Or.inr ⟨x, Or.inr hx, hh⟩
      · rintro (h | ⟨x, (rfl | hx), hh⟩)
        · exact Or.inl (Or.inl h)
        · exact Or.inl (Or.inr hh)
        · exact Or.inr ⟨x, hx, hh⟩

theorem buildGraphAux_nodup {ps l : List Project} {g : DiGraph}
    (h : g.nodes.Nodup) : (buildGraphAux ps g l).nodes.Nodup := by
  induction l generalizing g with
  | nil => exact h
  | cons p rest ih => exact ih (addDeps_nodup (add_node_nodup h))

theorem buildGraph_nodes_mem {ps : List Project} {q : Project} :
    q ∈ (buildGraph ps).nodes ↔ q ∈ ps := by
  rw [buildGraph, buildGraphAux_nodes_mem]
  constructor
  · rintro (h | h | ⟨p, _, hq⟩)
    · simp at h
    · exact h
    · exact (mem_get_interdependencies.mp hq).1
  · exact fun h => Or.inr (Or.inl h)

theorem buildGraph_edges_mem {ps : List Project} {a b : Project} :
    (a, b) ∈ (buildGraph ps).edges ↔ b ∈ ps ∧ a ∈ b.get_interdependencies ps := by
  rw [buildGraph, buildGraphAux_edges_mem]
  constructor
  · rintro (h | ⟨p, hp, d, hd, he⟩)
    · simp at h
    · rw [Prod.mk.injEq] at he
      obtain ⟨rfl, rfl⟩ := he
      exact ⟨hp, hd⟩
  · rintro ⟨hb, ha⟩
    exact Or.inr ⟨b, hb, a, ha, rfl⟩

theorem buildGraph_nodes_nodup {ps : List Project} : (buildGraph ps).nodes.Nodup :=
  buildGraphAux_nodup List.nodup_nil

theorem buildGraph_edge_endpoints {ps : List Project} {a b : Project}
    (h : (a, b) ∈ (buildGraph ps).edges) :
    a ∈ (buildGraph ps).nodes ∧ b ∈ (buildGraph ps).nodes := by
  rw [buildGraph_edges_mem] at h
  rw [buildGraph_nodes_mem, buildGraph_nodes_mem]
  exact ⟨(mem_get_interdependencies.mp h.2).1, h.1⟩

/-! ### Lemmas about the run of the topological sort -/

theorem topoSortAux_ok_perm {edges : List (Project × Project)} {fuel : Nat}
    {rem out : List Project} (h : topoSortAux edges fuel rem = .ok out) : out.Perm rem := by
  induction fuel generalizing rem out with
  | zero =>
      cases rem with
      | nil =>
          simp only [topoSortAux, Except.ok.injEq] at h
          subst h
          exact List.Perm.refl _
      | cons r rs => simp [topoSortAux] at h
  | succ fuel ih =>
      cases rem with
      | nil =>
          simp only [topoSortAux, Except.ok.injEq] at h
          subst h
          exact List.Perm.refl _
      | cons r rs =>
          simp only [topoSortAux] at h
          split at h
          · exact absurd h (by simp)
          · rename_i n hn
            split at h
            · exact absurd h (by simp)
            · rename_i out' hrec
              simp only [Except.ok.injEq] at h
              subst h
              have hmem : n ∈ r :: rs := (mem_eligible.mp (pickMin_mem hn)).1
              exact ((ih hrec).cons n).trans (List.perm_cons_erase hmem).symm

theorem topoSortAux_ok_indexOf {edges : List (Project × Project)} {fuel : Nat}
    {rem out : List Project} (h : topoSortAux edges fuel rem = .ok out) :
    ∀ a b, (a, b) ∈ edges → a ∈ rem → b ∈ out → out.indexOf a < out.indexOf b := by
  induction fuel generalizing rem out with
  | zero =>
      cases rem with
      | nil =>
          simp only [topoSortAux, Except.ok.injEq] at h
          subst h
          simp
      | cons r rs => simp [topoSortAux] at h
  | succ fuel ih =>
      cases rem with
      | nil =>
          simp only [topoSortAux, Except.ok.injEq] at h
          subst h
          simp
      | cons r rs =>
          simp only [topoSortAux] at h
          split at h
          · exact absurd h (by simp)
          · rename_i n hn
            split at h
            · exact absurd h (by simp)
            · rename_i out' hrec
              simp only [Except.ok.injEq] at h
              subst h
              intro a b hab ha hb
              have helig := mem_eligible.mp (pickMin_mem hn)
              by_cases hbn : b = n
              · subst hbn
                have : hasIncoming edges (r :: rs) b = true :=
                  hasIncoming_iff.mpr ⟨(a, b), hab, rfl, ha⟩
                rw [helig.2] at this
                exact absurd this (by simp)
              · have hb' : b ∈ out' := by
                  rcases List.mem_cons.mp hb with h | h
                  · exact absurd h hbn
                  · exact h
                by_cases han : a = n
                · subst han
                  rw [List.indexOf_cons_self, List.indexOf_cons_ne _ (Ne.symm hbn)]
                  exact Nat.succ_pos _
                · have ha' : a ∈ (r :: rs).erase n := (List.mem_erase_of_ne han).mpr ha
                  have hlt := ih hrec a b hab ha' hb'
                  rw [List.indexOf_cons_ne _ (Ne.symm han), List.indexOf_cons_ne _ (Ne.symm hbn)]
                  exact Nat.succ_lt_succ hlt

theorem topoSortAux_ok_min {edges : List (Project × Project)} {fuel : Nat}
    {rem out : List Project} (h : topoSortAux edges fuel rem = .ok out) :
    ∀ (i : Nat) (hi : i < out.length) (x : Project), x ∈ out.drop i →
      hasIncoming edges (out.drop i) x = false →
      (out.get ⟨i, hi⟩).id.data ≤ x.id.data := by
  induction fuel generalizing rem out with
  | zero =>
      cases rem with
      | nil =>
          simp only [topoSortAux, Except.ok.injEq] at h
          subst h
          simp
      | cons r rs => simp [topoSortAux] at h
  | succ fuel ih =>
      cases rem with
      | nil =>
          simp only [topoSortAux, Except.ok.injEq] at h
          subst h
          simp
      | cons r rs =>
          simp only [topoSortAux] at h
          split at h
          · exact absurd h (by simp)
          · rename_i n hn
            split at h
            · exact absurd h (by simp)
            · rename_i out' hrec
              simp only [Except.ok.injEq] at h
              subst h
              intro i hi x hx hninc
              have hperm : (n :: out').Perm (r :: rs) :=
                (((topoSortAux_ok_perm hrec).cons n).trans
                  (List.perm_cons_erase (mem_eligible.mp (pickMin_mem hn)).1).symm)
              cases i with
              | zero =>
                  simp only [List.drop_zero] at hx hninc
                  have hx' : x ∈ r :: rs := hperm.mem_iff.mp hx
                  have hninc' : hasIncoming edges (r :: rs) x = false := by
                    rw [← hasIncoming_congr (fun a => hperm.mem_iff) x]
                    exact hninc
                  exact pickMin_min hn x (mem_eligible.mpr ⟨hx', hninc'⟩)
              | succ j =>
                  have hj : j < out'.length := by
                    simpa [Nat.succ_lt_succ_iff] using hi
                  have hget : (n :: out').get ⟨j + 1, hi⟩ = out'.get ⟨j, hj⟩ := rfl
                  rw [hget]
                  simp only [List.drop_succ_cons] at hx hninc
                  exact ih hrec j hj x hx hninc

theorem topoSortAux_error {edges : List (Project × Project)} {fuel : Nat}
    {rem rem' : List Project} (hfuel : rem.length ≤ fuel) (hnd : rem.Nodup)
    (h : topoSortAux edges fuel rem = .error rem') :
    rem' ≠ [] ∧ rem'.Nodup ∧ ∀ x ∈ rem', hasIncoming edges rem' x = true := by
  induction fuel generalizing rem rem' with
  | zero =>
      cases rem with
      | nil => simp [topoSortAux] at h
      | cons r rs => simp at hfuel
  | succ fuel ih =>
      cases rem with
      | nil => simp [topoSortAux] at h
      | cons r rs =>
          simp only [topoSortAux] at h
          split at h
          · rename_i hn
            simp only [Except.error.injEq] at h
            subst h
            rw [pickMin_eq_none_iff] at hn
            refine ⟨by simp, hnd, fun x hx => ?_⟩
            by_contra hfalse
            have hmem : x ∈ eligible edges (r :: rs) :=
              mem_eligible.mpr ⟨hx, by simpa using hfalse⟩
            rw [hn] at hmem
            simp at hmem
          · rename_i n hn
            split at h
            · rename_i e hrec
              simp only [Except.error.injEq] at h
              subst h
              have hmem : n ∈ r :: rs := (mem_eligible.mp (pickMin_mem hn)).1
              have hlen : ((r :: rs).erase n).length ≤ fuel := by
                rw [List.length_erase_of_mem hmem]
                simp only [List.length_cons] at hfuel ⊢
                omega
              exact ih hlen (hnd.sublist (List.erase_sublist _ _)) hrec
            · exact absurd h (by simp)

/-! ### Cycles: a stuck remainder always contains a member of a dependency cycle -/

/-- For a node `x` of the stuck set `S`, pick one predecessor of `x` inside `S`. -/
def pickPred (edges : List (Project × Project)) (S : List Project) (x : Project) : Project :=
  match edges.find? (fun e => e.2 == x && S.contains e.1) with
  | some e => e.1
  | none => x

theorem pickPred_spec {edges : List (Project × Project)} {S : List Project} {x : Project}
    (h : hasIncoming edges S x = true) :
    pickPred edges S x ∈ S ∧ (pickPred edges S x, x) ∈ edges := by
  unfold pickPred
  have hex : ∃ e ∈ edges, (e.2 == x && S.contains e.1) = true := by
    simpa [hasIncoming, List.any_eq_true] using h
  split
  · rename_i e hfind
    have hp := List.find?_some hfind
    have hmem := List.mem_of_find?_eq_some hfind
    simp only [Bool.and_eq_true, beq_iff_eq] at hp
    refine ⟨by simpa using hp.2, ?_⟩
    have he : (e.1, x) = e := by
      rw [← hp.1]
    rw [he]
    exact hmem
  · rename_i hfind
    exfalso
    obtain ⟨e, he, hpe⟩ := hex
    exact absurd hpe (by simpa using List.find?_eq_none.mp hfind e he)

theorem stuck_has_cycle {edges : List (Project × Project)} {S : List Project}
    (hne : S ≠ []) (hnd : S.Nodup)
    (hstuck : ∀ x ∈ S, hasIncoming edges S x = true) :
    ∃ v ∈ S, Relation.TransGen (fun a b => (a, b) ∈ edges) v v := by
  obtain ⟨x₀, hx₀⟩ := List.exists_mem_of_ne_nil S hne
  set g := pickPred edges S with hg_def
  have hg : ∀ x ∈ S, g x ∈ S ∧ (g x, x) ∈ edges := fun x hx => pickPred_spec (hstuck x hx)
  have hiter : ∀ k, g^[k] x₀ ∈ S := by
    intro k
    induction k with
    | zero => simpa using hx₀
    | succ k ih =>
        rw [Function.iterate_succ_apply']
        exact (hg _ ih).1
  have hstep : ∀ j, (g^[j + 1] x₀, g^[j] x₀) ∈ edges := by
    intro j
    rw [Function.iterate_succ_apply']
    exact (hg _ (hiter j)).2
  have hdesc : ∀ d i, Relation.TransGen (fun a b => (a, b) ∈ edges) (g^[i + d + 1] x₀)
      (g^[i] x₀) := by
    intro d
    induction d with
    | zero => exact fun i => Relation.TransGen.single (hstep i)
    | succ d ih =>
        intro i
        have e : i + (d + 1) + 1 = (i + d + 1) + 1 := by omega
        rw [e]
        exact Relation.TransGen.trans (Relation.TransGen.single (hstep (i + d + 1))) (ih i)
  obtain ⟨i, hi, j, hj, hij, hfij⟩ :=
    Finset.exists_ne_map_eq_of_card_lt_of_maps_to
      (s := Finset.range (S.length + 1)) (t := S.toFinset)
      (by
        rw [Finset.card_range, List.toFinset_card_of_nodup hnd]
        omega)
      (f := fun i => g^[i] x₀)
      (fun i _ => List.mem_toFinset.mpr (hiter i))
  rcases Nat.lt_or_ge i j with hlt | hge
  · refine ⟨g^[i] x₀, hiter i, ?_⟩
    have h1 : Relation.TransGen (fun a b => (a, b) ∈ edges) (g^[j] x₀) (g^[i] x₀) := by
      have hj2 : i + (j - i - 1) + 1 = j := by omega
      have := hdesc (j - i - 1) i
      rw [hj2] at this
      exact this
    nth_rewrite 1 [hfij]
    exact h1
  · have hlt : j < i := by omega
    refine ⟨g^[j] x₀, hiter j, ?_⟩
    have h1 : Relation.TransGen (fun a b => (a, b) ∈ edges) (g^[i] x₀) (g^[j] x₀) := by
      have hi2 : j + (i - j - 1) + 1 = i := by omega
      have := hdesc (i - j - 1) j
      rw [hi2] at this
      exact this
    nth_rewrite 1 [← hfij]
    exact h1

/-! ### Transport between the raw candidate list and the sorted list -/

theorem mem_sortById {p : Project} {ps : List Project} : p ∈ sortById ps ↔ p ∈ ps :=
  (List.perm_insertionSort _ _).mem_iff

theorem mem_get_interdependencies_sortById {p q : Project} {ps : List Project} :
    q ∈ p.get_interdependencies (sortById ps) ↔ q ∈ p.get_interdependencies ps := by
  simp [mem_get_interdependencies, mem_sortById]

theorem get_projects_eq {ps : List Project} :
    get_projects ps =
      topoSortAux (buildGraph (sortById ps)).edges (buildGraph (sortById ps)).nodes.length
        (buildGraph (sortById ps)).nodes := rfl

theorem get_projects_ok_no_cycle {ps out : List Project} (h : get_projects ps = .ok out) :
    ∀ v, ¬ Relation.TransGen (fun a b => (a, b) ∈ (buildGraph (sortById ps)).edges) v v := by
  rw [get_projects_eq] at h
  intro v hv
  have key : ∀ a b, Relation.TransGen
      (fun a b => (a, b) ∈ (buildGraph (sortById ps)).edges) a b →
      out.indexOf a < out.indexOf b := by
    intro a b hab
    induction hab with
    | single he =>
        exact topoSortAux_ok_indexOf h _ _ he (buildGraph_edge_endpoints he).1
          ((topoSortAux_ok_perm h).mem_iff.mpr (buildGraph_edge_endpoints he).2)
    | tail hab he ih =>
        exact lt_trans ih
          (topoSortAux_ok_indexOf h _ _ he (buildGraph_edge_endpoints he).1
            ((topoSortAux_ok_perm h).mem_iff.mpr (buildGraph_edge_endpoints he).2))
  exact absurd (key v v hv) (lt_irrefl _)

/-! ### Invariants of the compute-once cells -/

theorem lazyGood_fresh : lazyGood RepoLazyState.fresh := by
  simp [lazyGood, RepoLazyState.fresh]

theorem access_spec (s : RepoLazyState) (op : RepoAccess) (h : lazyGood s) :
    lazyGood (access s op) ∧
    (access s op).handlerDone = true ∧
    (access s op).projectsDone = (s.projectsDone || decide (op = RepoAccess.projects)) ∧
    (access s op).vcsDone = (s.vcsDone || decide (op = RepoAccess.vcs)) ∧
    (access s op).hostDone = (s.hostDone || decide (op = RepoAccess.host)) := by
  obtain ⟨h1, h2, h3, h4, h5, h6, h7⟩ := h
  cases op <;>
    simp only [access, forceHandler] <;>
    split_ifs <;>
    simp_all [lazyGood]

theorem runAccesses_spec {s : RepoLazyState} (h : lazyGood s) (hh : s.handlerDone = true)
    (ops : List RepoAccess) :
    lazyGood (runAccesses s ops) ∧
    (runAccesses s ops).handlerDone = true ∧
    (runAccesses s ops).projectsDone
      = (s.projectsDone || decide (RepoAccess.projects ∈ ops)) ∧
    (runAccesses s ops).vcsDone = (s.vcsDone || decide (RepoAccess.vcs ∈ ops)) ∧
    (runAccesses s ops).hostDone = (s.hostDone || decide (RepoAccess.host ∈ ops)) := by
  induction ops generalizing s with
  | nil => exact ⟨h, hh, by simp [runAccesses], by simp [runAccesses], by simp [runAccesses]⟩
  | cons op rest ih =>
      obtain ⟨hg, hh', hp, hv, hho⟩ := access_spec s op h
      obtain ⟨hg2, hh2, hp2, hv2, hho2⟩ := ih hg hh'
      have hrun : runAccesses s (op :: rest) = runAccesses (access s op) rest := rfl
      rw [hrun]
      refine ⟨hg2, hh2, ?_, ?_, ?_⟩
      · rw [hp2, hp]
        by_cases hop : op = RepoAccess.projects <;>
          simp [hop, List.mem_cons, Bool.or_assoc, eq_comm]
      · rw [hv2, hv]
        by_cases hop : op = RepoAccess.vcs <;>
          simp [hop, List.mem_cons, Bool.or_assoc, eq_comm]
      · rw [hho2, hho]
        by_cases hop : op = RepoAccess.host <;>
          simp [hop, List.mem_cons, Bool.or_assoc, eq_comm]

/-! ### Helper for exhibiting acyclicity of a concrete one-edge graph -/

theorem no_cycle_of_single_edge {a b : Project} {edges : List (Project × Project)}
    (hedges : ∀ e ∈ edges, e = (a, b)) (hne : a ≠ b) :
    ∀ v, ¬ Relation.TransGen (fun x y => (x, y) ∈ edges) v v := by
  have himp : ∀ x y, Relation.TransGen (fun x y => (x, y) ∈ edges) x y → x = a ∧ y = b := by
    intro x y h
    induction h with
    | single he =>
        have h2 := hedges _ he
        rw [Prod.mk.injEq] at h2
        exact h2
    | tail hxm he ih =>
        have h2 := hedges _ he
        rw [Prod.mk.injEq] at h2
        exact absurd (ih.2.symm.trans h2.1) (Ne.symm hne)
  intro v hv
  have h2 := himp v v hv
  exact hne (h2.1 ▸ h2.2)

/-! ### The claims about `Repository._get_projects` -/

/-- C1: for every repository whose handler yields a set of projects with
acyclic interdependencies, `projects()` returns a sequence containing
every candidate project exactly once, and whenever `q` is among `p`'s
interdependencies (edge `q → p`), `q` appears strictly before `p`. -/
theorem projects_topological_order (ps : List Project) (hnd : ps.Nodup)
    (hacyc : ∀ v, ¬ Relation.TransGen
      (fun a b => (a, b) ∈ (buildGraph (sortById ps)).edges) v v) :
    ∃ out, get_projects ps = .ok out ∧ out.Perm ps ∧
      ∀ p ∈ ps, ∀ q ∈ p.get_interdependencies ps, out.indexOf q < out.indexOf p := by
  cases h : get_projects ps with
  | error rem =>
      exfalso
      rw [get_projects_eq] at h
      obtain ⟨hne, hnd', hstuck⟩ := topoSortAux_error (le_refl _) buildGraph_nodes_nodup h
      obtain ⟨v, hv, hcyc⟩ := stuck_has_cycle hne hnd' hstuck
      exact hacyc v hcyc
  | ok out =>
      rw [get_projects_eq] at h
      refine ⟨out, rfl, ?_, ?_⟩
      · exact (topoSortAux_ok_perm h).trans
          ((List.perm_ext_iff_of_nodup buildGraph_nodes_nodup hnd).mpr
            (fun a => by rw [buildGraph_nodes_mem, mem_sortById]))
      · intro p hp q hq
        have hedge : (q, p) ∈ (buildGraph (sortById ps)).edges :=
          buildGraph_edges_mem.mpr
            ⟨mem_sortById.mpr hp, mem_get_interdependencies_sortById.mpr hq⟩
        exact topoSortAux_ok_indexOf h _ _ hedge (buildGraph_edge_endpoints hedge).1
          ((topoSortAux_ok_perm h).mem_iff.mpr (buildGraph_edge_endpoints hedge).2)

/-- Witness for C1 on the concrete repository with candidates `b`, `a`,
`c` where `c` depends on `a`. -/
theorem projects_topological_order_witness :
    [exB, exA, exC].Nodup ∧
    ∃ out, get_projects [exB, exA, exC] = .ok out ∧ out.Perm [exB, exA, exC] ∧
      ∀ p ∈ [exB, exA, exC], ∀ q ∈ p.get_interdependencies [exB, exA, exC],
        out.indexOf q < out.indexOf p :=
  ⟨by decide, projects_topological_order [exB, exA, exC] (by decide)
    (no_cycle_of_single_edge (a := exA) (b := exC) (by decide) (by decide))⟩

/-- C2: whenever several projects are simultaneously eligible (all their
dependency edges already resolved among the not-yet-emitted projects), the
one with the lexicographically smallest id is emitted next; in particular
the candidates `b` (no deps), `a` (no deps), `c` (depends on `a`) are
returned exactly in the order `a`, `b`, `c`. -/
theorem projects_min_id_tie_break :
    (∀ (ps out : List Project), get_projects ps = .ok out →
      ∀ (i : Nat) (hi : i < out.length) (x : Project), x ∈ out.drop i →
        hasIncoming (buildGraph (sortById ps)).edges (out.drop i) x = false →
        (out.get ⟨i, hi⟩).id ≤ x.id) ∧
    get_projects [exB, exA, exC] = .ok [exA, exB, exC] := by
  constructor
  · intro ps out h i hi x hx hninc
    rw [get_projects_eq] at h
    rw [String.le_iff_toList_le]
    exact topoSortAux_ok_min h i hi x hx hninc
  · decide

/-- Witness for C2: in the example, after no emission the eligible `b` is
not preferred over the emitted `a`. -/
theorem projects_min_id_tie_break_witness :
    get_projects [exB, exA, exC] = .ok [exA, exB, exC] ∧
    (([exA, exB, exC] : List Project).get ⟨0, by decide⟩).id ≤ exB.id :=
  ⟨projects_min_id_tie_break.2,
    projects_min_id_tie_break.1 [exB, exA, exC] [exA, exB, exC]
      projects_min_id_tie_break.2 0 (by decide) exB (by decide) (by decide)⟩

/-- C3: for every repository whose project interdependencies contain a
cycle, `projects()` fails with a circular-dependency error whose reported
remainder contains a member of a cycle, and no ordering is returned. -/
theorem projects_cycle_error (ps : List Project)
    (hcyc : ∃ v, Relation.TransGen
      (fun a b => (a, b) ∈ (buildGraph (sortById ps)).edges) v v) :
    ∃ rem, get_projects ps = .error rem ∧ rem ≠ [] ∧
      ∃ v ∈ rem, Relation.TransGen
        (fun a b => (a, b) ∈ (buildGraph (sortById ps)).edges) v v := by
  obtain ⟨v₀, hv₀⟩ := hcyc
  cases h : get_projects ps with
  | ok out => exact absurd hv₀ (get_projects_ok_no_cycle h v₀)
  | error rem =>
      have h' := h
      rw [get_projects_eq] at h'
      obtain ⟨hne, hnd', hstuck⟩ := topoSortAux_error (le_refl _) buildGraph_nodes_nodup h'
      obtain ⟨v, hv, hc⟩ := stuck_has_cycle hne hnd' hstuck
      exact ⟨rem, rfl, hne, v, hv, hc⟩

/-- Witness for C3 on the two-project cycle `x` depends on `y`, `y`
depends on `x`. -/
theorem projects_cycle_error_witness :
    ∃ rem, get_projects [cycX, cycY] = .error rem ∧ rem ≠ [] ∧
      ∃ v ∈ rem, Relation.TransGen
        (fun a b => (a, b) ∈ (buildGraph (sortById [cycX, cycY])).edges) v v :=
  projects_cycle_error [cycX, cycY]
    ⟨cycX, Relation.TransGen.head (b := cycY) (by decide)
      (Relation.TransGen.single (by decide))⟩

/-- C8: dangling dependency declarations are harmless. Every edge of the
dependency graph arises from an existing candidate matched by distribution
name, a dependency name matching no candidate contributes no edge, and
`projects()` succeeds on a concrete repository with such a dependency. -/
theorem dangling_dependencies_ignored :
    (∀ (ps : List Project) (a b : Project),
      (a, b) ∈ (buildGraph (sortById ps)).edges ↔
        b ∈ ps ∧ a ∈ ps ∧ a ≠ b ∧ ∃ n, a.distName = some n ∧ n ∈ b.deps) ∧
    (∀ (ps : List Project) (p : Project) (d : String), p ∈ ps → d ∈ p.deps →
      (∀ q ∈ ps, q.distName ≠ some d) →
      ∀ a b, (a, b) ∈ (buildGraph (sortById ps)).edges → a.distName ≠ some d) ∧
    get_projects [dngM, dngN] = .ok [dngM, dngN] := by
  have hchar : ∀ (ps : List Project) (a b : Project),
      (a, b) ∈ (buildGraph (sortById ps)).edges ↔
        b ∈ ps ∧ a ∈ ps ∧ a ≠ b ∧ ∃ n, a.distName = some n ∧ n ∈ b.deps := by
    intro ps a b
    rw [buildGraph_edges_mem, mem_sortById, mem_get_interdependencies_sortById,
      mem_get_interdependencies, depMatch_iff]
  refine ⟨hchar, ?_, by decide⟩
  intro ps p d hp hd hq a b hab hcontra
  obtain ⟨hb, ha, hne, n, hdist, hmem⟩ := (hchar ps a b).mp hab
  exact hq a ha hcontra

/-- Witness for C8: in the repository where `m` depends on the unknown
name `ghost` and `n` depends on `m`, no edge is contributed by `ghost`. -/
theorem dangling_dependencies_ignored_witness :
    dngM ∈ [dngM, dngN] ∧ "ghost" ∈ dngM.deps ∧
    get_projects [dngM, dngN] = .ok [dngM, dngN] ∧
    dngM.distName ≠ some "ghost" :=
  ⟨by decide, by decide, dangling_dependencies_ignored.2.2,
    dangling_dependencies_ignored.2.1 [dngM, dngN] dngM "ghost" (by decide) (by decide)
      (by decide) dngM dngN (by decide)⟩

/-! ### The claims about `Repository.is_monorepo` -/

/-- C6: `is_monorepo` is true iff more than one project exists, or exactly
one exists whose directory differs from the repository directory; in
particular it is false for zero projects and for a single project at the
repository root. -/
theorem is_monorepo_characterisation :
    (∀ (directory : String) (projects : List Project),
      is_monorepo directory projects = true ↔
        1 < projects.length ∨ ∃ p, projects = [p] ∧ p.directory ≠ directory) ∧
    (∀ directory : String, is_monorepo directory [] = false) ∧
    (∀ (directory : String) (p : Project), p.directory = directory →
      is_monorepo directory [p] = false) := by
  refine ⟨?_, fun directory => rfl, ?_⟩
  · intro directory ps
    match ps with
    | [] => simp [is_monorepo]
    | [p] =>
        simp only [is_monorepo, List.length_singleton, Bool.or_eq_true, bne_iff_ne]
        constructor
        · rintro (h | h)
          · simp at h
          · exact Or.inr ⟨p, rfl, h⟩
        · rintro (h | ⟨q, hq, h⟩)
          · simp at h
          · rw [List.cons.injEq] at hq
            exact Or.inr (hq.1 ▸ h)
    | p :: q :: rest =>
        simp only [is_monorepo, List.length_cons, Bool.or_eq_true]
        constructor
        · intro _
          exact Or.inl (by omega)
        · intro _
          exact Or.inl (by simp)
  · intro directory p h
    simp [is_monorepo, h]

/-- Witness for C6: a single project located at the repository root. -/
theorem is_monorepo_characterisation_witness :
    exRoot.directory = "/repo" ∧ is_monorepo "/repo" [exRoot] = false :=
  ⟨rfl, is_monorepo_characterisation.2.2 "/repo" exRoot rfl⟩

/-! ### The claims about `Repository._get_repository_handler` -/

/-- C4: with no configured handler name, a default handler that does not
match the repository makes handler resolution fail with
`NotASlamRepository`. -/
theorem default_handler_mismatch_raises (defaultHandler : RepositoryHandler)
    (load_entrypoint : String → Option RepositoryHandler)
    (h : defaultHandler.matches_repository = false) :
    get_repository_handler .absent defaultHandler load_entrypoint =
      .error .notASlamRepository := by
  simp [get_repository_handler, h]

/-- Witness for C4: the non-matching default handler with an empty plugin
registry. -/
theorem default_handler_mismatch_raises_witness :
    defH.matches_repository = false ∧
    get_repository_handler .absent defH noPlugins = .error .notASlamRepository :=
  ⟨by decide, default_handler_mismatch_raises defH noPlugins (by decide)⟩

/-- C5: with an explicitly configured handler name, a resolved handler
that does not match fails the defensive assertion, `NotASlamRepository` is
never raised, and the result does not depend on the default handler. -/
theorem explicit_handler_mismatch_is_assertion :
    (∀ (name : String) (d h : RepositoryHandler)
        (load_entrypoint : String → Option RepositoryHandler),
      load_entrypoint name = some h → h.matches_repository = false →
      get_repository_handler (.str name) d load_entrypoint = .error .assertMismatch) ∧
    (∀ (name : String) (d : RepositoryHandler)
        (load_entrypoint : String → Option RepositoryHandler),
      get_repository_handler (.str name) d load_entrypoint ≠
        .error .notASlamRepository) ∧
    (∀ (name : String) (d d' : RepositoryHandler)
        (load_entrypoint : String → Option RepositoryHandler),
      get_repository_handler (.str name) d load_entrypoint =
        get_repository_handler (.str name) d' load_entrypoint) := by
  refine ⟨?_, ?_, ?_⟩
  · intro name d h load_entrypoint hload hmatch
    simp [get_repository_handler, hload, hmatch]
  · intro name d load_entrypoint
    simp only [get_repository_handler]
    cases load_entrypoint name with
    | none => simp
    | some val => by_cases hm : val.matches_repository <;> simp [hm]
  · intro name d d' load_entrypoint
    rfl

/-- Witness for C5: the explicit name `poetry` resolves to a handler that
does not match the repository. -/
theorem explicit_handler_mismatch_is_assertion_witness :
    onlyPoetry "poetry" = some poetryH ∧ poetryH.matches_repository = false ∧
    get_repository_handler (.str "poetry") defH onlyPoetry = .error .assertMismatch :=
  ⟨by decide, by decide,
    explicit_handler_mismatch_is_assertion.1 "poetry" defH poetryH onlyPoetry
      (by decide) (by decide)⟩

/-- C10: a configured `repository.handler` value that is present but not a
string fails the `isinstance` assertion, and that assertion can never fire
when the value is absent or a string. -/
theorem non_string_handler_config_asserts :
    (∀ (d : RepositoryHandler) (load_entrypoint : String → Option RepositoryHandler),
      get_repository_handler .other d load_entrypoint = .error .assertNotAString) ∧
    (∀ (d : RepositoryHandler) (load_entrypoint : String → Option RepositoryHandler),
      get_repository_handler .absent d load_entrypoint ≠ .error .assertNotAString) ∧
    (∀ (name : String) (d : RepositoryHandler)
        (load_entrypoint : String → Option RepositoryHandler),
      get_repository_handler (.str name) d load_entrypoint ≠
        .error .assertNotAString) := by
  refine ⟨fun d load_entrypoint => rfl, ?_, ?_⟩
  · intro d load_entrypoint
    simp only [get_repository_handler]
    split <;> simp
  · intro name d load_entrypoint
    simp only [get_repository_handler]
    cases load_entrypoint name with
    | none => simp
    | some val => by_cases hm : val.matches_repository <;> simp [hm]

/-! ### The claims about the lazy compute-once fields -/

/-- C7: across any non-empty sequence of accesses to `load()`,
`projects()`, `vcs()` and `host()` on one instance, the handler-resolution
computation runs exactly once, and each other lazy computation runs
exactly once if its accessor appears in the sequence and never otherwise. -/
theorem lazy_fields_computed_once (ops : List RepoAccess) (h : ops ≠ []) :
    (runAccesses RepoLazyState.fresh ops).handlerRuns = 1 ∧
    (runAccesses RepoLazyState.fresh ops).projectsRuns =
      (if RepoAccess.projects ∈ ops then 1 else 0) ∧
    (runAccesses RepoLazyState.fresh ops).vcsRuns =
      (if RepoAccess.vcs ∈ ops then 1 else 0) ∧
    (runAccesses RepoLazyState.fresh ops).hostRuns =
      (if RepoAccess.host ∈ ops then 1 else 0) := by
  cases ops with
  | nil => exact absurd rfl h
  | cons op rest =>
      obtain ⟨hg, hh, hp, hv, hho⟩ := access_spec RepoLazyState.fresh op lazyGood_fresh
      obtain ⟨hg2, hh2, hp2, hv2, hho2⟩ := runAccesses_spec hg hh rest
      have hrun : runAccesses RepoLazyState.fresh (op :: rest) =
          runAccesses (access RepoLazyState.fresh op) rest := rfl
      obtain ⟨k1, k2, k3, k4, _, _, _⟩ := hg2
      rw [hrun]
      refine ⟨?_, ?_, ?_, ?_⟩
      · rw [k1, hh2]
        rfl
      · rw [k2, hp2, hp]
        simp only [RepoLazyState.fresh, Bool.false_or]
        by_cases hop : op = RepoAccess.projects <;>
          by_cases hrest : RepoAccess.projects ∈ rest <;>
            simp [hop, hrest, List.mem_cons, eq_comm]
      · rw [k3, hv2, hv]
        simp only [RepoLazyState.fresh, Bool.false_or]
        by_cases hop : op = RepoAccess.vcs <;>
          by_cases hrest : RepoAccess.vcs ∈ rest <;>
            simp [hop, hrest, List.mem_cons, eq_comm]
      · rw [k4, hho2, hho]
        simp only [RepoLazyState.fresh, Bool.false_or]
        by_cases hop : op = RepoAccess.host <;>
          by_cases hrest : RepoAccess.host ∈ rest <;>
            simp [hop, hrest, List.mem_cons, eq_comm]

/-- Witness for C7: four accesses, two of them to `projects()`. -/
theorem lazy_fields_computed_once_witness :
    ([RepoAccess.projects, RepoAccess.load, RepoAccess.vcs, RepoAccess.projects] ≠
      ([] : List RepoAccess)) ∧
    ((runAccesses RepoLazyState.fresh
        [RepoAccess.projects, RepoAccess.load, RepoAccess.vcs,
          RepoAccess.projects]).handlerRuns = 1 ∧
      (runAccesses RepoLazyState.fresh
        [RepoAccess.projects, RepoAccess.load, RepoAccess.vcs,
          RepoAccess.projects]).projectsRuns =
        (if RepoAccess.projects ∈
            [RepoAccess.projects, RepoAccess.load, RepoAccess.vcs, RepoAccess.projects]
          then 1 else 0) ∧
      (runAccesses RepoLazyState.fresh
        [RepoAccess.projects, RepoAccess.load, RepoAccess.vcs,
          RepoAccess.projects]).vcsRuns =
        (if RepoAccess.vcs ∈
            [RepoAccess.projects, RepoAccess.load, RepoAccess.vcs, RepoAccess.projects]
          then 1 else 0) ∧
      (runAccesses RepoLazyState.fresh
        [RepoAccess.projects, RepoAccess.load, RepoAccess.vcs,
          RepoAccess.projects]).hostRuns =
        (if RepoAccess.host ∈
            [RepoAccess.projects, RepoAccess.load, RepoAccess.vcs, RepoAccess.projects]
          then 1 else 0)) :=
  ⟨by decide,
    lazy_fields_computed_once
      [RepoAccess.projects, RepoAccess.load, RepoAccess.vcs, RepoAccess.projects]
      (by decide)⟩

end Slam
